import Mathlib

/-!
Shallow embedding of the `ircparser` crate (`src/lib.rs`, `src/line.rs`).

Strings are modelled as `List Char` (the spec treats input as a sequence of
Unicode scalar values; all indices in the source are positions in that
sequence — the byte/char distinction of Rust `str` is not observable on the
ASCII inputs considered here, and Rust's slice-boundary panics cannot fire on
the in-range slices the parser takes, as noted at each use).

Rust panics (`Option::unwrap` on `None`, out-of-bounds `Vec` indexing) are
modelled by the explicit error value `Err.panicked`, kept distinct from the
recoverable `ParseError` (`Err.parseError`), so that "returns an error value"
and "crashes" are distinguishable outcomes of the model.
-/

namespace IrcParser

/-- The error outcomes of running `parse`: a recoverable `ParseError` carrying
its `details` string, or a Rust panic (`unwrap` on `None` / index out of
bounds), which aborts the program rather than returning a value. -/
inductive Err where
  | parseError : String → Err
  | panicked : Err
deriving DecidableEq, Repr

/-- `line.rs`: `pub struct Line { tags, source, command, params }`.
`tags: HashMap<String, String>` is modelled as an association list in which
each key occurs at most once (`insertTag` overwrites); lookup order is the
only observable of the hash map. -/
structure Line where
  tags : List (List Char × List Char)
  source : Option (List Char)
  command : List Char
  params : List (List Char)
deriving DecidableEq, Repr

/-- `text.replace('\r', "")`: removing every carriage return. -/
def removeCR (text : List Char) : List Char :=
  text.filter (fun c => c ≠ '\r')

/-- Rust `str::split(sep)`: splits on every occurrence of `sep`; always yields
at least one piece, and adjacent separators yield empty pieces
(`"".split(c) == [""]`, `"a;;b".split(';') == ["a","","b"]`). -/
def splitCh (sep : Char) : List Char → List (List Char)
  | [] => [[]]
  | c :: rest =>
    if c = sep then [] :: splitCh sep rest
    else
      match splitCh sep rest with
      | [] => [[c]]
      | p :: ps => (c :: p) :: ps

/-- Rust `str::find(char)`: index of the first occurrence, if any. -/
def findChar (text : List Char) (c : Char) : Option Nat :=
  match text with
  | [] => none
  | x :: rest => if x = c then some 0 else (findChar rest c).map (· + 1)

/-- The index list of `text.match_indices(c)`: every position of `c` in
`text`, in increasing order. -/
def matchIndices (text : List Char) (c : Char) : List Nat :=
  match text with
  | [] => []
  | x :: rest =>
    if x = c then 0 :: (matchIndices rest c).map (· + 1)
    else (matchIndices rest c).map (· + 1)

/-- `lib.rs` `fn find_index(text, char, start)`: walk `text.match_indices`
and return the first index `k` with `k > start`, else `None`. -/
def find_index (text : List Char) (c : Char) (start : Nat) : Option Nat :=
  (matchIndices text c).find? (fun k => start < k)

/-- Rust slice `text[i..j]` (all uses in `parse` have `i ≤ j ≤ text.len()`,
so the out-of-range panic of Rust slicing cannot fire and a total model is
faithful). -/
def slice (text : List Char) (i j : Nat) : List Char :=
  (text.take j).drop i

abbrev TagMap := List (List Char × List Char)

/-- `HashMap::insert`: map the key to the new value, overwriting any previous
binding. Modelled by consing the new pair and dropping any old pair for the
same key, which realizes exactly the hash map's lookup observable. -/
def insertTag (tags : TagMap) (k v : List Char) : TagMap :=
  (k, v) :: tags.filter (fun p => p.1 ≠ k)

/-- `HashMap` lookup (`line.tags["id"]` / `get`). -/
def lookupTag (tags : TagMap) (k : List Char) : Option (List Char) :=
  (tags.find? (fun p => p.1 = k)).map (fun p => p.2)

/-- The tags loop of `parse` (`lib.rs` lines 159-164): for each `part` of the
payload split on `';'`, `let kv: Vec<&str> = part.split('=').collect();`
then `tags.insert(kv[0], kv[1])` — the two `Vec` indexings panic when the
piece does not exist (`kv[1]` is out of bounds when `part` has no `'='`). -/
def buildTags (tags : TagMap) : List (List Char) → Except Err TagMap
  | [] => .ok tags
  | part :: rest =>
    let kv := splitCh '=' part
    match kv.get? 0 with
    | none => .error .panicked
    | some k =>
      match kv.get? 1 with
      | none => .error .panicked
      | some v => buildTags (insertTag tags k v) rest

/-- The tags component of `parse` (`lib.rs` lines 156-168): when the line
starts with `'@'`, `idx = line.find(' ').unwrap()` (panic when no space),
the payload is `line[1..idx]` split on `';'` fed to the tags loop, and the
cursor advances past the consumed space (`idx += 1`). -/
def parseTagsStep (line : List Char) : Except Err (TagMap × Nat) :=
  if line.head? = some '@' then
    match findChar line ' ' with
    | none => .error .panicked
    | some idx =>
      match buildTags [] (splitCh ';' (slice line 1 idx)) with
      | .error e => .error e
      | .ok tags => .ok (tags, idx + 1)
  else
    .ok ([], 0)

/-- The source component of `parse` (`lib.rs` lines 170-175):
`line.chars().nth(idx).unwrap()` (panic when the cursor is past the end);
when that character is `':'`, `find_index(line, ' ', idx).unwrap()` (panic
when no space strictly after the cursor), the source is `line[idx..end_idx]`
(leading `':'` retained) and the cursor advances past the space. -/
def parseSourceStep (line : List Char) (idx : Nat) :
    Except Err (Option (List Char) × Nat) :=
  match line.get? idx with
  | none => .error .panicked
  | some c =>
    if c = ':' then
      match find_index line ' ' idx with
      | none => .error .panicked
      | some endIdx => .ok (some (slice line idx endIdx), endIdx + 1)
    else
      .ok (none, idx)

/-- One iteration of the loop in `parse` (`lib.rs` lines 147-192): the empty
check, the tags, source and command components, then the params component:
`c_idx` is one before the first `':'` strictly after the cursor (or
`line.len()` when none), the middle params are `line[idx..c_idx]` split on
`' '` (the `.map(|x| x.to_string())` is the identity here), and when a colon
was found `line[c_idx + 2..]` is pushed as the trailing param. -/
def parseLine (line : List Char) : Except Err Line :=
  if line = [] then .error (.parseError "line length cannot be 0")
  else
    match parseTagsStep line with
    | .error e => .error e
    | .ok (tags, idx) =>
      match parseSourceStep line idx with
      | .error e => .error e
      | .ok (source, idx2) =>
        match find_index line ' ' idx2 with
        | none => .error .panicked
        | some endIdx =>
          let command := slice line idx2 endIdx
          let idx3 := endIdx + 1
          let cIdx :=
            match find_index line ':' idx3 with
            | some x => x - 1
            | none => line.length
          let middle := splitCh ' ' (slice line idx3 cIdx)
          let params :=
            if cIdx ≠ line.length then middle ++ [line.drop (cIdx + 2)]
            else middle
          .ok ⟨tags, source, command, params⟩

/-- The loop of `parse` over candidate lines: the first failing line aborts
the whole batch (Rust `return Err(..)` / panic), successful lines are pushed
back in input order. -/
def parseLines : List (List Char) → Except Err (List Line)
  | [] => .ok []
  | l :: rest =>
    match parseLine l with
    | .error e => .error e
    | .ok pl =>
      match parseLines rest with
      | .error e => .error e
      | .ok pls => .ok (pl :: pls)

/-- `lib.rs` `pub fn parse(text)`: strip carriage returns, split on newline,
parse each candidate line in order. -/
def parse (text : List Char) : Except Err (List Line) :=
  parseLines (splitCh '\n' (removeCR text))

/-- Whether a parse outcome is a Rust panic — an `unwrap` on `None` or an
out-of-bounds index — as opposed to returning `Ok` or a `ParseError`. -/
def isPanic : Except Err (List Line) → Bool
  | .error .panicked => true
  | _ => false

/-- Modelled from the spec's words, for comparison with `buildTags`: the
last-seen value for a key among a list of (key, value) pairs — "duplicate
keys retain the last-seen value". -/
def specLastSeenValue (pairs : List (List Char × List Char)) (key : List Char) :
    Option (List Char) :=
  (pairs.reverse.find? (fun p => p.1 = key)).map (fun p => p.2)

/-- Newline-separated concatenation, used to build multi-line inputs. -/
def joinLines : List (List Char) → List Char
  | [] => []
  | [l] => l
  | l :: l2 :: rest => l ++ '\n' :: joinLines (l2 :: rest)

/-- C2: the README line parses into exactly one `Line` with tags mapping
`id ↦ 123` and `name ↦ rick`, source `Some(":nick!user@host.tmi.twitch.tv")`
with the leading colon retained, command `PRIVMSG`, and params
`["#rickastley", "Never gonna give you up!"]`. -/
theorem c2_readme_line_parses :
    parse (("@id=123;name=rick :nick!user@host.tmi.twitch.tv PRIVMSG #rickastley :Never gonna give you up!").toList) =
      .ok [⟨[(("name").toList, ("rick").toList), (("id").toList, ("123").toList)],
            some ((":nick!user@host.tmi.twitch.tv").toList),
            ("PRIVMSG").toList,
            [("#rickastley").toList, ("Never gonna give you up!").toList]⟩] ∧
    lookupTag [(("name").toList, ("rick").toList), (("id").toList, ("123").toList)]
        (("id").toList) = some (("123").toList) ∧
    lookupTag [(("name").toList, ("rick").toList), (("id").toList, ("123").toList)]
        (("name").toList) = some (("rick").toList) :=
  ⟨rfl, rfl, rfl⟩

/-- C9: in `"CMD :trailing"` the first colon sits exactly at the post-command
cursor (index 4), `find_index` demands an index strictly greater than the
cursor and so finds no colon, and the line parses with the single param
`":trailing"`, colon retained, rather than a trailing param `"trailing"`. -/
theorem c9_colon_at_cursor_not_trailing :
    find_index (("CMD :trailing").toList) ':' 4 = none ∧
    parse (("CMD :trailing").toList) =
      .ok [⟨[], none, ("CMD").toList, [(":trailing").toList]⟩] :=
  ⟨rfl, rfl⟩

/-- C10: in `"CMD ab:cd"` the colon found at index 6 makes the middle-param
region stop at index 5, unconditionally discarding the character `'b'` before
the colon even though it is not a space: params are `["a", "cd"]`. -/
theorem c10_char_before_colon_discarded :
    parse (("CMD ab:cd").toList) =
      .ok [⟨[], none, ("CMD").toList, [("a").toList, ("cd").toList]⟩] :=
  rfl

/-- C1 counterexample: on `"@id=123"` (tags segment with no following space)
`parse` panics (`line.find(' ').unwrap()` on `None`) instead of returning a
`ParseError`, refuting "each listed failure condition surfaces as a
ParseError and never as a panic/crash". -/
theorem c1_counterexample_tags_no_space_panics :
    isPanic (parse (("@id=123").toList)) = true :=
  rfl

/-- C4 counterexample: on `"@k PING x"` the tags segment contains the entry
`"k"` with no `=`; `parse` panics (`kv[1]` index out of bounds) instead of
failing with a `ParseError`. -/
theorem c4_counterexample_bare_key_panics :
    parse (("@k PING x").toList) = .error .panicked :=
  rfl

/-- C5 counterexample: `"A\n"` contains an empty candidate line after newline
splitting, yet `parse` panics on the first line (command with no terminating
space) rather than failing with the ParseError "line length cannot be 0". -/
theorem c5_counterexample_earlier_line_panics :
    ([] : List Char) ∈ splitCh '\n' (removeCR (("A\n").toList)) ∧
    parse (("A\n").toList) = .error .panicked :=
  ⟨by decide, rfl⟩

/-- C3 counterexample: the tag entry `"k=a=b"` is stored with value `"a"`
(the piece between the first and second `=`), not the full remaining text
`"a=b"` after the first `=` as claimed. -/
theorem c3_counterexample_value_truncated_at_second_eq :
    parse (("@k=a=b PING x").toList) =
      .ok [⟨[(("k").toList, ("a").toList)], none, ("PING").toList, [("x").toList]⟩] ∧
    ("a").toList ≠ ("a=b").toList :=
  ⟨rfl, by decide⟩

/-- C7 counterexample: the tags segment `a=1=2` does not put the pair's full
value `"1=2"` into the mapping — the stored value is `"1"`. -/
theorem c7_counterexample_pair_value_not_exact :
    parse (("@a=1=2 PING x").toList) =
      .ok [⟨[(("a").toList, ("1").toList)], none, ("PING").toList, [("x").toList]⟩] ∧
    lookupTag [(("a").toList, ("1").toList)] (("a").toList) ≠ some (("1=2").toList) :=
  ⟨rfl, by decide⟩

end IrcParser
namespace IrcParser

theorem splitCh_ne_nil (sep : Char) (l : List Char) : splitCh sep l ≠ [] := by
  cases l with
  | nil => simp [splitCh]
  | cons c rest =>
    simp only [splitCh]
    split
    · simp
    · split <;> simp

theorem splitCh_of_not_mem (sep : Char) (l : List Char) (h : sep ∉ l) :
    splitCh sep l = [l] := by
  induction l with
  | nil => rfl
  | cons c rest ih =>
    simp only [List.mem_cons, not_or] at h
    have hcs : ¬ c = sep := fun hc => h.1 hc.symm
    simp only [splitCh, if_neg hcs, ih h.2]

theorem splitCh_append_cons (sep : Char) (l1 l2 : List Char) (h : sep ∉ l1) :
    splitCh sep (l1 ++ sep :: l2) = l1 :: splitCh sep l2 := by
  induction l1 with
  | nil => simp [splitCh]
  | cons c rest ih =>
    simp only [List.mem_cons, not_or] at h
    have hcs : ¬ c = sep := fun hc => h.1 hc.symm
    simp only [List.cons_append, splitCh, if_neg hcs, List.append_eq, ih h.2]

theorem mem_matchIndices_lt (text : List Char) (c : Char) (k : Nat)
    (h : k ∈ matchIndices text c) : k < text.length := by
  induction text generalizing k with
  | nil => simp [matchIndices] at h
  | cons x rest ih =>
    simp only [matchIndices] at h
    split at h
    · rcases List.mem_cons.mp h with h0 | hm
      · simp [h0]
      · rcases List.mem_map.mp hm with ⟨j, hj, rfl⟩
        have := ih j hj
        simp
        omega
    · rcases List.mem_map.mp h with ⟨j, hj, rfl⟩
      have := ih j hj
      simp
      omega

theorem find_index_some (text : List Char) (c : Char) (s k : Nat)
    (h : find_index text c s = some k) : s < k ∧ k < text.length := by
  unfold find_index at h
  have h1 := List.find?_some h
  have h2 := List.mem_of_find?_eq_some h
  exact ⟨by simpa using h1, mem_matchIndices_lt _ _ _ h2⟩

theorem slice_ne_nil (text : List Char) (i j : Nat) (hij : i < j)
    (hj : j ≤ text.length) : slice text i j ≠ [] := by
  have hlen : (slice text i j).length = j - i := by
    simp [slice, List.length_drop, List.length_take]
    omega
  intro hnil
  rw [hnil] at hlen
  simp at hlen
  omega

theorem buildTags_error_eq (parts : List (List Char)) (tags : TagMap) (e : Err)
    (h : buildTags tags parts = .error e) : e = .panicked := by
  induction parts generalizing tags with
  | nil => simp [buildTags] at h
  | cons part rest ih =>
    simp only [buildTags] at h
    split at h
    · cases h; rfl
    · split at h
      · cases h; rfl
      · exact ih _ h

end IrcParser
namespace IrcParser

theorem parseTagsStep_error_eq (line : List Char) (e : Err)
    (h : parseTagsStep line = .error e) : e = .panicked := by
  unfold parseTagsStep at h
  split at h
  · split at h
    · cases h; rfl
    · split at h
      · rename_i e' heq
        cases h
        exact buildTags_error_eq _ _ _ heq
      · cases h
  · cases h

theorem parseSourceStep_error_eq (line : List Char) (idx : Nat) (e : Err)
    (h : parseSourceStep line idx = .error e) : e = .panicked := by
  unfold parseSourceStep at h
  split at h
  · cases h; rfl
  · split at h
    · split at h
      · cases h; rfl
      · cases h
    · cases h

theorem parseLine_error_eq (line : List Char) (e : Err)
    (h : parseLine line = .error e) :
    e = .panicked ∨ e = .parseError "line length cannot be 0" := by
  unfold parseLine at h
  split at h
  · cases h; right; rfl
  · split at h
    · rename_i e' heq
      cases h
      exact Or.inl (parseTagsStep_error_eq _ _ heq)
    · split at h
      · rename_i e' heq
        cases h
        exact Or.inl (parseSourceStep_error_eq _ _ _ heq)
      · split at h
        · cases h; left; rfl
        · simp at h

theorem parseLines_error_eq (lines : List (List Char)) (e : Err)
    (h : parseLines lines = .error e) :
    e = .panicked ∨ e = .parseError "line length cannot be 0" := by
  induction lines with
  | nil => simp [parseLines] at h
  | cons a rest ih =>
    simp only [parseLines] at h
    split at h
    · rename_i e' heq
      cases h
      exact parseLine_error_eq _ _ heq
    · split at h
      · rename_i e' heq
        cases h
        exact ih heq
      · cases h

theorem parseLine_ok_command_ne_nil (line : List Char) (l : Line)
    (h : parseLine line = .ok l) : l.command ≠ [] := by
  unfold parseLine at h
  split at h
  · cases h
  · split at h
    · cases h
    · split at h
      · cases h
      · split at h
        · cases h
        · rename_i endIdx heq
          cases h
          rcases find_index_some _ _ _ _ heq with ⟨hlt, hlen⟩
          exact slice_ne_nil _ _ _ hlt (Nat.le_of_lt hlen)

theorem parseLines_ok_mem (lines : List (List Char)) (out : List Line)
    (h : parseLines lines = .ok out) :
    ∀ l ∈ out, ∃ line ∈ lines, parseLine line = .ok l := by
  induction lines generalizing out with
  | nil =>
    simp only [parseLines] at h
    cases h
    simp
  | cons a rest ih =>
    simp only [parseLines] at h
    split at h
    · cases h
    · rename_i pl heqa
      split at h
      · cases h
      · rename_i pls heqr
        cases h
        intro l hl
        rcases List.mem_cons.mp hl with rfl | hm
        · exact ⟨a, List.mem_cons_self _ _, heqa⟩
        · rcases ih pls heqr l hm with ⟨line, hline, hok⟩
          exact ⟨line, List.mem_cons_of_mem _ hline, hok⟩

end IrcParser
namespace IrcParser

theorem parseLines_empty_mem (lines : List (List Char)) (h : [] ∈ lines)
    (out : List Line) : parseLines lines ≠ .ok out := by
  induction lines generalizing out with
  | nil => simp at h
  | cons a rest ih =>
    intro hok
    simp only [parseLines] at hok
    split at hok
    · cases hok
    · rename_i pl heqa
      split at hok
      · cases hok
      · rename_i pls heqr
        rcases List.mem_cons.mp h with rfl | hm
        · simp [parseLine] at heqa
        · exact ih hm pls heqr

/-- C1 amended: `parse` is a total function whose outcome is `Ok`, the
empty-line `ParseError`, or a panic; each of the four other listed failure
conditions (tags segment with no following space, malformed tag entry,
source with no terminating space, command with no terminating space)
surfaces as a panic, never as a `ParseError`. -/
theorem c1_amended_outcome_trichotomy :
    (∀ text : List Char,
      (∃ ls, parse text = .ok ls) ∨
      parse text = .error (.parseError "line length cannot be 0") ∨
      parse text = .error .panicked) ∧
    isPanic (parse (("@a=1").toList)) = true ∧
    isPanic (parse (("@x PING y").toList)) = true ∧
    isPanic (parse ((":abc").toList)) = true ∧
    isPanic (parse (("PING").toList)) = true ∧
    parse (("").toList) = .error (.parseError "line length cannot be 0") := by
  refine ⟨?_, rfl, rfl, rfl, rfl, rfl⟩
  intro text
  rcases hp : parse text with e | ls
  · have hp' : parseLines (splitCh '\n' (removeCR text)) = .error e := hp
    rcases parseLines_error_eq _ _ hp' with rfl | rfl
    · exact Or.inr (Or.inr rfl)
    · exact Or.inr (Or.inl rfl)
  · exact Or.inl ⟨ls, rfl⟩

/-- C6: after any successful parse, every resulting `Line` has a non-empty
command: the command substring runs from the cursor to a space index found
strictly beyond it. -/
theorem c6_command_nonempty (text : List Char) (ls : List Line)
    (h : parse text = .ok ls) : ∀ l ∈ ls, l.command ≠ [] := by
  intro l hl
  have h' : parseLines (splitCh '\n' (removeCR text)) = .ok ls := h
  rcases parseLines_ok_mem _ _ h' l hl with ⟨line, _, hok⟩
  exact parseLine_ok_command_ne_nil line l hok

theorem c6_witness :
    (⟨[], none, ("PING").toList, [("x").toList]⟩ : Line).command ≠ [] :=
  c6_command_nonempty (("PING x").toList)
    [⟨[], none, ("PING").toList, [("x").toList]⟩] rfl _
    (List.mem_singleton_self _)

/-- C5 amended: parsing the empty string fails with the `ParseError`
"line length cannot be 0" and produces no `Message`; more generally, an
input containing an empty candidate line never parses successfully — it
yields that `ParseError`, or a panic when an earlier malformed line crashes
first. -/
theorem c5_amended_empty_line :
    parse (("").toList) = .error (.parseError "line length cannot be 0") ∧
    ∀ text : List Char, [] ∈ splitCh '\n' (removeCR text) →
      ∀ ls : List Line, parse text ≠ .ok ls := by
  refine ⟨rfl, ?_⟩
  intro text hmem ls
  exact parseLines_empty_mem _ hmem ls

theorem c5_witness : parse (("PING x\n").toList) ≠ .ok [] :=
  c5_amended_empty_line.2 (("PING x\n").toList) (by decide) []

end IrcParser
namespace IrcParser

theorem splitCh_two_pieces (sep : Char) (l : List Char) (h : sep ∈ l) :
    ∃ k v ps, splitCh sep l = k :: v :: ps := by
  induction l with
  | nil => simp at h
  | cons x rest ih =>
    by_cases hx : x = sep
    · subst hx
      rcases hsp : splitCh x rest with _ | ⟨p, ps⟩
      · exact absurd hsp (splitCh_ne_nil x rest)
      · exact ⟨[], p, ps, by simp [splitCh, hsp]⟩
    · have hrest : sep ∈ rest := by
        rcases List.mem_cons.mp h with rfl | hm
        · exact absurd rfl hx
        · exact hm
      rcases ih hrest with ⟨k, v, ps, hsp⟩
      exact ⟨x :: k, v, ps, by simp [splitCh, hx, hsp]⟩

theorem buildTags_bare_key (parts : List (List Char)) (tags : TagMap)
    (part : List Char) (hmem : part ∈ parts) (hne : '=' ∉ part) :
    buildTags tags parts = .error .panicked := by
  induction parts generalizing tags with
  | nil => simp at hmem
  | cons a rest ih =>
    by_cases ha : '=' ∈ a
    · rcases splitCh_two_pieces '=' a ha with ⟨k, v, ps, hsp⟩
      have hmem' : part ∈ rest := by
        rcases List.mem_cons.mp hmem with rfl | hm
        · exact absurd ha hne
        · exact hm
      simp only [buildTags, hsp]
      exact ih _ hmem'
    · simp only [buildTags, splitCh_of_not_mem '=' a ha]
      rfl

theorem removeCR_eq_self (l : List Char) (h : '\r' ∉ l) : removeCR l = l := by
  simp only [removeCR]
  rw [List.filter_eq_self]
  intro a ha
  simp only [ne_eq, decide_not, Bool.not_eq_true', decide_eq_false_iff_not]
  rintro rfl
  exact h ha

theorem findChar_append_cons (c : Char) (l1 l2 : List Char) (h : c ∉ l1) :
    findChar (l1 ++ c :: l2) c = some l1.length := by
  induction l1 with
  | nil => simp [findChar]
  | cons x rest ih =>
    simp only [List.mem_cons, not_or] at h
    have hx : ¬ x = c := fun hxc => h.1 hxc.symm
    simp [findChar, hx, ih h.2]

/-- C3 amended: a tag entry is split on every `=`, the key is the text
before the first `=`, and the stored value is only the piece between the
first and the second `=` (the full remainder when there is just one `=`);
text after a second `=` is dropped, so `k=a=b` stores value `a`. -/
theorem c3_amended_split_takes_piece_one (tags : TagMap) (k v rest : List Char)
    (hk : '=' ∉ k) (hv : '=' ∉ v) :
    buildTags tags [k ++ '=' :: v] = .ok (insertTag tags k v) ∧
    buildTags tags [k ++ '=' :: (v ++ '=' :: rest)] = .ok (insertTag tags k v) := by
  constructor
  · simp only [buildTags, splitCh_append_cons '=' k v hk, splitCh_of_not_mem '=' v hv]
    rfl
  · simp only [buildTags, splitCh_append_cons '=' k _ hk,
               splitCh_append_cons '=' v rest hv]
    rfl

theorem c3_witness :
    buildTags [] [(("k").toList ++ '=' :: ("a").toList)] =
      .ok (insertTag [] (("k").toList) (("a").toList)) ∧
    buildTags [] [(("k").toList ++ '=' :: (("a").toList ++ '=' :: ("b").toList))] =
      .ok (insertTag [] (("k").toList) (("a").toList)) :=
  c3_amended_split_takes_piece_one [] (("k").toList) (("a").toList) (("b").toList)
    (by decide) (by decide)

end IrcParser
namespace IrcParser

/-- C4 amended: a tags segment containing an entry with no `=` makes `parse`
panic (out-of-bounds `kv[1]`) rather than fail with a `ParseError`. -/
theorem c4_amended_bare_key_panics (payload rest part : List Char)
    (hsp : ' ' ∉ payload) (hnlp : '\n' ∉ payload) (hcrp : '\r' ∉ payload)
    (hnlr : '\n' ∉ rest) (hcrr : '\r' ∉ rest)
    (hmem : part ∈ splitCh ';' payload) (hne : '=' ∉ part) :
    parse ('@' :: payload ++ ' ' :: rest) = .error .panicked := by
  have hcr : '\r' ∉ '@' :: payload ++ ' ' :: rest := by
    intro hm
    rcases List.mem_cons.mp hm with h | h
    · exact absurd h (by decide)
    rcases List.mem_append.mp h with h | h
    · exact hcrp h
    rcases List.mem_cons.mp h with h | h
    · exact absurd h (by decide)
    · exact hcrr h
  have hnl : '\n' ∉ '@' :: payload ++ ' ' :: rest := by
    intro hm
    rcases List.mem_cons.mp hm with h | h
    · exact absurd h (by decide)
    rcases List.mem_append.mp h with h | h
    · exact hnlp h
    rcases List.mem_cons.mp h with h | h
    · exact absurd h (by decide)
    · exact hnlr h
  have htags : parseTagsStep ('@' :: payload ++ ' ' :: rest) = .error .panicked := by
    have hfind : findChar ('@' :: payload ++ ' ' :: rest) ' ' = some (payload.length + 1) := by
      have h1 : ' ' ∉ ('@' :: payload) := by
        simp only [List.mem_cons, not_or]
        exact ⟨by decide, hsp⟩
      have h2 := findChar_append_cons ' ' ('@' :: payload) rest h1
      simpa using h2
    have hslice : slice ('@' :: payload ++ ' ' :: rest) 1 (payload.length + 1) = payload := by
      simp [slice, List.take_succ_cons, List.take_left]
    unfold parseTagsStep
    rw [if_pos (show ('@' :: payload ++ ' ' :: rest).head? = some '@' from rfl)]
    simp only [hfind, hslice, buildTags_bare_key (splitCh ';' payload) [] part hmem hne]
  unfold parse
  rw [removeCR_eq_self _ hcr, splitCh_of_not_mem '\n' _ hnl]
  have hline : parseLine ('@' :: payload ++ ' ' :: rest) = .error .panicked := by
    unfold parseLine
    rw [if_neg (by simp)]
    simp only [htags]
  simp only [parseLines, hline]

theorem c4_witness :
    parse ('@' :: ("id=1;k").toList ++ ' ' :: ("PING x").toList) = .error .panicked :=
  c4_amended_bare_key_panics (("id=1;k").toList) (("PING x").toList) (("k").toList)
    (by decide) (by decide) (by decide) (by decide) (by decide) (by decide) (by decide)

end IrcParser
namespace IrcParser

theorem not_mem_joinLines (c : Char) (lines : List (List Char)) (hc : c ≠ '\n')
    (h : ∀ l ∈ lines, c ∉ l) : c ∉ joinLines lines := by
  induction lines with
  | nil => simp [joinLines]
  | cons a rest ih =>
    cases rest with
    | nil =>
      simpa [joinLines] using h a (List.mem_cons_self _ _)
    | cons b rest2 =>
      intro hm
      rcases List.mem_append.mp hm with hma | hmr
      · exact h a (List.mem_cons_self _ _) hma
      rcases List.mem_cons.mp hmr with heq | hm2
      · exact hc heq
      · exact ih (fun l hl => h l (List.mem_cons_of_mem _ hl)) hm2

theorem splitCh_joinLines (lines : List (List Char)) (hne : lines ≠ [])
    (h : ∀ l ∈ lines, '\n' ∉ l) :
    splitCh '\n' (joinLines lines) = lines := by
  induction lines with
  | nil => exact absurd rfl hne
  | cons a rest ih =>
    cases rest with
    | nil => simp [joinLines, splitCh_of_not_mem '\n' a (h a (List.mem_cons_self _ _))]
    | cons b rest2 =>
      have ha : '\n' ∉ a := h a (List.mem_cons_self _ _)
      rw [show joinLines (a :: b :: rest2) = a ++ '\n' :: joinLines (b :: rest2) from rfl]
      rw [splitCh_append_cons '\n' a _ ha]
      rw [ih (by simp) (fun l hl => h l (List.mem_cons_of_mem _ hl))]

theorem parseLines_all_ok (lines : List (List Char))
    (h : ∀ l ∈ lines, ∃ pl, parseLine l = .ok pl) :
    ∃ out, parseLines lines = .ok out ∧
      List.Forall₂ (fun line pl => parseLine line = .ok pl) lines out := by
  induction lines with
  | nil => exact ⟨[], rfl, List.Forall₂.nil⟩
  | cons a rest ih =>
    rcases h a (List.mem_cons_self _ _) with ⟨pl, hpl⟩
    rcases ih (fun l hl => h l (List.mem_cons_of_mem _ hl)) with ⟨out, hout, hf⟩
    refine ⟨pl :: out, ?_, List.Forall₂.cons hpl hf⟩
    simp only [parseLines, hpl, hout]

/-- C8: after carriage-return stripping, an input of `N` newline-separated
individually valid lines parses into exactly `N` `Line`s, pairing each input
line with its parse in input order. -/
theorem c8_multiline_in_order (lines : List (List Char))
    (hne : lines ≠ [])
    (hchars : ∀ l ∈ lines, '\n' ∉ l ∧ '\r' ∉ l)
    (hok : ∀ l ∈ lines, ∃ pl, parseLine l = .ok pl) :
    ∃ out, parse (joinLines lines) = .ok out ∧ out.length = lines.length ∧
      List.Forall₂ (fun line pl => parseLine line = .ok pl) lines out := by
  rcases parseLines_all_ok lines hok with ⟨out, hout, hf⟩
  refine ⟨out, ?_, hf.length_eq.symm, hf⟩
  unfold parse
  rw [removeCR_eq_self _ (not_mem_joinLines '\r' lines (by decide)
        (fun l hl => (hchars l hl).2)),
      splitCh_joinLines lines hne (fun l hl => (hchars l hl).1), hout]

theorem c8_witness :
    ∃ out, parse (joinLines [("PING x").toList, ("PONG y").toList]) = .ok out ∧
      out.length = 2 ∧
      List.Forall₂ (fun line pl => parseLine line = .ok pl)
        [("PING x").toList, ("PONG y").toList] out := by
  have h := c8_multiline_in_order [("PING x").toList, ("PONG y").toList]
    (by simp) (by decide)
    (by
      intro l hl
      rcases List.mem_cons.mp hl with rfl | hl2
      · exact ⟨_, rfl⟩
      rcases List.mem_cons.mp hl2 with rfl | hl3
      · exact ⟨_, rfl⟩
      · simp at hl3)
  simpa using h

end IrcParser
namespace IrcParser

theorem find?_key_filter (tags : TagMap) (k key : List Char) (hne : key ≠ k) :
    (tags.filter (fun p => p.1 ≠ k)).find? (fun p => p.1 = key) =
      tags.find? (fun p => p.1 = key) := by
  induction tags with
  | nil => rfl
  | cons a rest ih =>
    by_cases ha : a.1 = key
    · have hak : ¬ a.1 = k := fun hh => hne (ha.symm.trans hh)
      rw [List.filter_cons_of_pos (by simp [hak]),
          List.find?_cons_of_pos _ (by simp [ha]),
          List.find?_cons_of_pos _ (by simp [ha])]
    · by_cases hak : a.1 = k
      · rw [List.filter_cons_of_neg (by simp [hak]),
            List.find?_cons_of_neg _ (by simp [ha]), ih]
      · rw [List.filter_cons_of_pos (by simp [hak]),
            List.find?_cons_of_neg _ (by simp [ha]),
            List.find?_cons_of_neg _ (by simp [ha]), ih]

theorem lookupTag_insertTag (tags : TagMap) (k v key : List Char) :
    lookupTag (insertTag tags k v) key =
      if key = k then some v else lookupTag tags key := by
  unfold lookupTag insertTag
  by_cases hkey : key = k
  · subst hkey
    rw [List.find?_cons_of_pos _ (by simp), if_pos rfl]
    rfl
  · have hk2 : ¬ k = key := fun h => hkey h.symm
    rw [List.find?_cons_of_neg _ (by simp [hk2]),
        if_neg hkey, find?_key_filter tags k key hkey]

theorem specLastSeenValue_cons (p : List Char × List Char)
    (rest : List (List Char × List Char)) (key : List Char) :
    specLastSeenValue (p :: rest) key =
      ((specLastSeenValue rest key).or
        (if p.1 = key then some p.2 else none)) := by
  unfold specLastSeenValue
  rw [List.reverse_cons, List.find?_append]
  by_cases hp : p.1 = key
  · rw [List.find?_cons_of_pos _ (by simp [hp]), if_pos hp]
    cases rest.reverse.find? (fun p => p.1 = key) <;> rfl
  · rw [List.find?_cons_of_neg _ (by simp [hp]), if_neg hp]
    cases rest.reverse.find? (fun p => p.1 = key) <;> rfl

theorem buildTags_lookup (pairs : List (List Char × List Char)) (tags : TagMap)
    (h : ∀ p ∈ pairs, '=' ∉ p.1 ∧ '=' ∉ p.2) :
    ∃ m, buildTags tags (pairs.map (fun p => p.1 ++ '=' :: p.2)) = .ok m ∧
      ∀ key, lookupTag m key =
        (specLastSeenValue pairs key).or (lookupTag tags key) := by
  induction pairs generalizing tags with
  | nil =>
    refine ⟨tags, rfl, fun key => ?_⟩
    simp [specLastSeenValue]
  | cons p rest ih =>
    have hp := h p (List.mem_cons_self _ _)
    rcases ih (insertTag tags p.1 p.2) (fun q hq => h q (List.mem_cons_of_mem _ hq))
      with ⟨m, hm, hlook⟩
    refine ⟨m, ?_, fun key => ?_⟩
    · simp only [List.map_cons, buildTags, splitCh_append_cons '=' p.1 p.2 hp.1,
                 splitCh_of_not_mem '=' p.2 hp.2]
      exact hm
    · rw [hlook key, lookupTag_insertTag, specLastSeenValue_cons]
      cases hs : specLastSeenValue rest key with
      | some a => simp [hs]
      | none =>
        by_cases hk : key = p.1
        · simp [hk]
        · rw [if_neg hk, if_neg (fun hpk : p.1 = key => hk hpk.symm)]
          cases lookupTag tags key <;> rfl

/-- C7 amended: for a tags segment whose entries each contain exactly one
`=` (key and value both `=`-free), every `key=value` pair lands in the tags
mapping with its exact string value and duplicate keys retain the last-seen
value: looking up any key in the built map gives exactly the last value
paired with that key in the segment. -/
theorem c7_amended_exact_and_last_seen (pairs : List (List Char × List Char))
    (h : ∀ p ∈ pairs, '=' ∉ p.1 ∧ '=' ∉ p.2) :
    ∃ m, buildTags [] (pairs.map (fun p => p.1 ++ '=' :: p.2)) = .ok m ∧
      ∀ key, lookupTag m key = specLastSeenValue pairs key := by
  rcases buildTags_lookup pairs [] h with ⟨m, hm, hl⟩
  refine ⟨m, hm, fun key => ?_⟩
  rw [hl key]
  cases specLastSeenValue pairs key <;> rfl

theorem c7_witness :
    ∃ m, buildTags []
        ([((("a").toList, ("1").toList)), ((("a").toList, ("2").toList)),
          ((("b").toList, ("3").toList))].map (fun p => p.1 ++ '=' :: p.2)) = .ok m ∧
      ∀ key, lookupTag m key =
        specLastSeenValue
          [((("a").toList, ("1").toList)), ((("a").toList, ("2").toList)),
           ((("b").toList, ("3").toList))] key :=
  c7_amended_exact_and_last_seen _ (by decide)

end IrcParser
